import Mathlib

/-!
Verification of `src/stream_stats.py` (knighton/stream-stats).

The program maintains streaming statistics over scalar observations.  Each
tracker of `StreamStatter` is embedded as a Lean function over exact rationals
(`ℚ` stands in for the Python numbers), with the mutable per-tracker state made
explicit and fallible queries returning `Option` or an explicit result type.
The engine's `_count` field is incremented exactly once per observation, so a
run over a list `xs` has `count = xs.length`; the trackers are independent, and
each is driven by a `List.foldl` over the observed values.

Python's `heapq` binary heaps are modelled as ascending sorted lists realising
the min-heap contract the code relies on: `heappush` inserts the value,
`heap[0]` reads the minimum, and `heappop` removes and returns the minimum.
-/

namespace StreamStats

/-! ## Extrema tracker (`_min`, `_max`; lines 59-63, 93-97, 159-171) -/

/-- One step of `note_min` (lines 159-164): `None` means no prior value. -/
def noteMin (cur : Option ℚ) (n : ℚ) : Option ℚ :=
  match cur with
  | none => some n
  | some m => some (min n m)

/-- One step of `note_max` (lines 166-171). -/
def noteMax (cur : Option ℚ) (n : ℚ) : Option ℚ :=
  match cur with
  | none => some n
  | some m => some (max n m)

/-- The value of `min()` (lines 93-94) after observing `xs` in order. -/
def minAfter (xs : List ℚ) : Option ℚ := xs.foldl noteMin none

/-- The value of `max()` (lines 96-97) after observing `xs` in order. -/
def maxAfter (xs : List ℚ) : Option ℚ := xs.foldl noteMax none

/-! ## Moment tracker (`_sum`, `_sum_squared`; lines 66-69, 173-177) -/

/-- The running accumulators `_sum` and `_sum_squared`. -/
structure MomentState where
  sum : ℚ
  sumSquared : ℚ
  deriving DecidableEq

def initMoment : MomentState := ⟨0, 0⟩

/-- One observation: `note_arithmetic_mean` plus `note_stddev`
(lines 173-177). -/
def noteMoment (s : MomentState) (n : ℚ) : MomentState :=
  { sum := s.sum + n, sumSquared := s.sumSquared + n ^ 2 }

def momentAfter (xs : List ℚ) : MomentState := xs.foldl noteMoment initMoment

/-- `stddev` (lines 99-104) up to its final square root: the radicand
`(n * sum_squared - sum ^ 2) / (n * (n - 1))`, with `none` for the `None`
sentinel when `count <= 1`.  The square root itself is irrational in general
and is treated in the theorems about this definition. -/
def stddevRadicand (count : ℕ) (s : MomentState) : Option ℚ :=
  if count ≤ 1 then none
  else some (((count : ℚ) * s.sumSquared - s.sum ^ 2) /
    ((count : ℚ) * ((count : ℚ) - 1)))

/-! ## Product tracker (`_product`; lines 71-72, 114-122, 179-180) -/

/-- The running product `_product` (starts at `1.0`) after observing `xs`. -/
def productAfter (xs : List ℚ) : ℚ := xs.foldl (fun p n => p * n) 1

/-- Result of `geometric_mean` (lines 114-122): the Python function returns
`None`, a float (nonnegative-product branch), or a complex number
(negative-product branch). -/
inductive GMResult where
  | undef : GMResult
  | real : ℝ → GMResult
  | cplx : ℂ → GMResult

/-- `geometric_mean` (lines 114-122).  `exp = 1.0 / count`; a nonnegative
product is raised to `exp` as a real power, a negative product as a complex
power of exponent `exp + 0j` (principal branch, which is what Python's complex
`**` computes).  The real and complex powers are transcendental, hence this
single query definition is noncomputable; every branching in it is decidable
and is evaluated in the theorems below. -/
noncomputable def geometricMean (count : ℕ) (product : ℚ) : GMResult :=
  if count = 0 then .undef
  else if 0 ≤ product then .real ((product : ℝ) ^ ((count : ℝ))⁻¹)
  else .cplx ((product : ℂ) ^ ((count : ℂ))⁻¹)

/-! ## Inverse-sum tracker (`_seen_zero`, `_sum_of_inv`; lines 74-76, 124-129,
182-186) -/

structure HarmonicState where
  seenZero : Bool
  sumOfInv : ℚ
  deriving DecidableEq

def initHarmonic : HarmonicState := ⟨false, 0⟩

/-- `note_harmonic_mean` (lines 182-186): a zero observation sets `_seen_zero`
permanently; while it is still unset after the update, the reciprocal is
accumulated. -/
def noteHarmonic (s : HarmonicState) (n : ℚ) : HarmonicState :=
  let seen := s.seenZero || decide (n = 0)
  { seenZero := seen
    sumOfInv := if seen then s.sumOfInv else s.sumOfInv + n⁻¹ }

def harmonicAfter (xs : List ℚ) : HarmonicState :=
  xs.foldl noteHarmonic initHarmonic

/-- Result of a fallible rational-valued query: the `None` sentinel for a
not-yet-defined statistic, a raised exception, or a returned value. -/
inductive QueryResult where
  | undef : QueryResult
  | fault : QueryResult
  | val : ℚ → QueryResult
  deriving DecidableEq

/-- `harmonic_mean` (lines 124-129).  Python evaluates
`count * sum_of_inv ** -1`; when the accumulated sum is exactly zero the
operation `0.0 ** -1` raises `ZeroDivisionError`, modelled as `fault`. -/
def harmonicMean (count : ℕ) (s : HarmonicState) : QueryResult :=
  if count = 0 then .undef
  else if s.seenZero then .val 0
  else if s.sumOfInv = 0 then .fault
  else .val ((count : ℚ) * s.sumOfInv⁻¹)

/-! ## Frequency tracker (`_n2count`, `_max_n_count`, `_modes`; lines 78-81,
131-132, 188-195) -/

/-- State of the mode tracker.  `counts` models the `defaultdict(int)`
`_n2count` (absent keys read as `0`); `maxCount` models `_max_n_count`, which
starts as Python `None`. -/
structure ModeState where
  counts : ℚ → ℕ
  maxCount : Option ℕ
  modes : List ℚ

def initMode : ModeState := ⟨fun _ => 0, none, []⟩

/-- The Python 2 comparison `a_count > self._max_n_count`: every integer
compares greater than `None`. -/
def gtMax (c : ℕ) (m : Option ℕ) : Bool :=
  match m with
  | none => true
  | some k => c > k

/-- The Python 2 comparison `a_count == self._max_n_count`: an integer never
equals `None`. -/
def eqMax (c : ℕ) (m : Option ℕ) : Bool :=
  match m with
  | none => false
  | some k => c = k

/-- `note_mode` (lines 188-195). -/
def noteMode (s : ModeState) (n : ℚ) : ModeState :=
  let c := s.counts n + 1
  let counts := fun v => if v = n then c else s.counts v
  if gtMax c s.maxCount then ⟨counts, some c, [n]⟩
  else if eqMax c s.maxCount then ⟨counts, s.maxCount, s.modes ++ [n]⟩
  else ⟨counts, s.maxCount, s.modes⟩

def modeAfter (xs : List ℚ) : ModeState := xs.foldl noteMode initMode

/-! ## Order-statistic tracker (`_neg_lt_maxheap`, `_gt_minheap`;
lines 83-85, 134-144, 197-210) -/

/-- `heapq.heappush` on the sorted-list heap model: insert keeping ascending
order, so that the head is the minimum. -/
def hpush (l : List ℚ) (x : ℚ) : List ℚ := l.orderedInsert (· ≤ ·) x

/-- The two heaps: `negLoHeap` is `_neg_lt_maxheap` (the lower half, stored
negated so the min-heap head is the negated maximum), `hiHeap` is
`_gt_minheap` (the upper half). -/
structure MedState where
  negLoHeap : List ℚ
  hiHeap : List ℚ
  deriving DecidableEq

def initMed : MedState := ⟨[], []⟩

/-- `note_median` (lines 197-210).  The guard
`self._neg_lt_maxheap and n < -self._neg_lt_maxheap[0]` is a nonemptiness
test plus a strict comparison against the heap head; the push-then-pop pairs
are written out on the sorted-list model.  The `[]` arms of the inner matches
are unreachable (a push never empties a heap) and return the state unchanged. -/
def noteMedian (s : MedState) (n : ℚ) : MedState :=
  if s.negLoHeap.length = s.hiHeap.length then
    match s.negLoHeap with
    | t :: _ =>
      if n < -t then
        match hpush s.negLoHeap (-n) with
        | [] => s
        | m :: rest => { negLoHeap := rest, hiHeap := hpush s.hiHeap (-m) }
      else { s with hiHeap := hpush s.hiHeap n }
    | [] => { s with hiHeap := hpush s.hiHeap n }
  else
    match s.hiHeap with
    | t :: _ =>
      if t < n then
        match hpush s.hiHeap n with
        | [] => s
        | m :: rest => { negLoHeap := hpush s.negLoHeap (-m), hiHeap := rest }
      else { s with negLoHeap := hpush s.negLoHeap (-n) }
    | [] => { s with negLoHeap := hpush s.negLoHeap (-n) }

/-- `median` (lines 134-144).  When the heaps have equal sizes both are
indexed at `[0]`; on the empty state this raises `IndexError`, modelled by
`none`.  There is no `count == 0` guard in the source. -/
def medianQuery (s : MedState) : Option ℚ :=
  if s.negLoHeap.length = s.hiHeap.length then
    match s.negLoHeap, s.hiHeap with
    | a :: _, b :: _ => some ((-a + b) / 2)
    | _, _ => none
  else if s.negLoHeap.length < s.hiHeap.length then
    s.hiHeap.head?
  else
    s.negLoHeap.head?.map fun a => -a

def medianAfter (xs : List ℚ) : MedState := xs.foldl noteMedian initMed

/-- The median obtained by fully sorting a list, following the words of the
specification: the middle element for odd length, the average of the two
middle elements for even length, undefined for the empty list.  This is the
reference definition that `medianQuery ∘ medianAfter` is compared against. -/
def sortedMedian (l : List ℚ) : Option ℚ :=
  if (l.insertionSort (· ≤ ·)).length = 0 then none
  else if (l.insertionSort (· ≤ ·)).length % 2 = 1 then
    (l.insertionSort (· ≤ ·))[(l.insertionSort (· ≤ ·)).length / 2]?
  else
    match (l.insertionSort (· ≤ ·))[(l.insertionSort (· ≤ ·)).length / 2 - 1]?,
        (l.insertionSort (· ≤ ·))[(l.insertionSort (· ≤ ·)).length / 2]? with
    | some a, some b => some ((a + b) / 2)
    | _, _ => none

/-- Invariant of the dual-heap state relative to the multiset `M` of observed
values: both stored lists are ascending, the upper heap has the same size as
the lower heap or one more element, every lower-half value is at most every
upper-half value, and together the halves hold exactly `M`. -/
def MedInv (s : MedState) (M : Multiset ℚ) : Prop :=
  s.negLoHeap.Sorted (· ≤ ·) ∧ s.hiHeap.Sorted (· ≤ ·) ∧
  (s.hiHeap.length = s.negLoHeap.length ∨
    s.hiHeap.length = s.negLoHeap.length + 1) ∧
  (∀ a ∈ s.negLoHeap, ∀ b ∈ s.hiHeap, -a ≤ b) ∧
  ((s.negLoHeap.map fun a => -a : List ℚ) : Multiset ℚ) + (s.hiHeap : Multiset ℚ) = M

/-- Invariant of the mode tracker state after observing `xs`: counts agree
with occurrence counts in `xs`; before any observation the register is `None`
and the mode list empty; afterwards the register holds the maximum occurrence
count and the mode list holds exactly the values attaining it. -/
def ModeInv (xs : List ℚ) (s : ModeState) : Prop :=
  (∀ v, s.counts v = xs.count v) ∧
  ((s.maxCount = none ∧ xs = [] ∧ s.modes = []) ∨
    (∃ m, s.maxCount = some m ∧ 0 < m ∧ s.modes ≠ [] ∧
      (∀ v, xs.count v ≤ m) ∧
      (∀ v, v ∈ s.modes ↔ xs.count v = m)))

/-! ## Theorems: extrema tracker -/

theorem foldl_noteMax_some (ys : List ℚ) :
    ∀ m : ℚ, ∃ m2, ys.foldl noteMax (some m) = some m2 ∧ m ≤ m2 := by
  induction ys with
  | nil => exact fun m => ⟨m, rfl, le_refl m⟩
  | cons y ys ih =>
    intro m
    obtain ⟨m2, h, hle⟩ := ih (max y m)
    exact ⟨m2, h, le_trans (le_max_right y m) hle⟩

theorem foldl_noteMin_some (ys : List ℚ) :
    ∀ m : ℚ, ∃ m2, ys.foldl noteMin (some m) = some m2 ∧ m2 ≤ m := by
  induction ys with
  | nil => exact fun m => ⟨m, rfl, le_refl m⟩
  | cons y ys ih =>
    intro m
    obtain ⟨m2, h, hle⟩ := ih (min y m)
    exact ⟨m2, h, le_trans hle (min_le_right y m)⟩

theorem maxAfter_append (xs extra : List ℚ) (m : ℚ) (h : maxAfter xs = some m) :
    ∃ m2, maxAfter (xs ++ extra) = some m2 ∧ m ≤ m2 := by
  have : maxAfter (xs ++ extra) = extra.foldl noteMax (maxAfter xs) := by
    simp [maxAfter, List.foldl_append]
  rw [this, h]
  exact foldl_noteMax_some extra m

theorem minAfter_append (xs extra : List ℚ) (m : ℚ) (h : minAfter xs = some m) :
    ∃ m2, minAfter (xs ++ extra) = some m2 ∧ m2 ≤ m := by
  have : minAfter (xs ++ extra) = extra.foldl noteMin (minAfter xs) := by
    simp [minAfter, List.foldl_append]
  rw [this, h]
  exact foldl_noteMin_some extra m

theorem take_prefix_decomp (xs : List ℚ) {i j : ℕ} (hij : i ≤ j) :
    xs.take j = xs.take i ++ (xs.take j).drop i := by
  conv_lhs => rw [← List.take_append_drop i (xs.take j)]
  rw [List.take_take, min_eq_left hij]

/-- C9: as a stream progresses, the value of `max()` never decreases and the
value of `min()` never increases across prefixes; after `[3,1,4,1,5,9,2,6]`
the minimum is `1` and the maximum `9`; before the first observation both
return the `None` sentinel. -/
theorem minmax_monotone_spec :
    (∀ (xs : List ℚ) (i j : ℕ), i ≤ j → ∀ m : ℚ, maxAfter (xs.take i) = some m →
      ∃ m2, maxAfter (xs.take j) = some m2 ∧ m ≤ m2) ∧
    (∀ (xs : List ℚ) (i j : ℕ), i ≤ j → ∀ m : ℚ, minAfter (xs.take i) = some m →
      ∃ m2, minAfter (xs.take j) = some m2 ∧ m2 ≤ m) ∧
    minAfter [3, 1, 4, 1, 5, 9, 2, 6] = some 1 ∧
    maxAfter [3, 1, 4, 1, 5, 9, 2, 6] = some 9 ∧
    minAfter [] = none ∧ maxAfter [] = none := by
  refine ⟨?_, ?_, by decide, by decide, rfl, rfl⟩
  · intro xs i j hij m h
    rw [take_prefix_decomp xs hij]
    exact maxAfter_append _ _ m h
  · intro xs i j hij m h
    rw [take_prefix_decomp xs hij]
    exact minAfter_append _ _ m h

theorem minmax_monotone_spec_witness :
    ∃ m2, maxAfter (([3, 1] : List ℚ).take 2) = some m2 ∧ (3 : ℚ) ≤ m2 :=
  minmax_monotone_spec.1 [3, 1] 1 2 (by decide) 3 (by decide)

/-! ## Theorems: moment tracker -/

theorem foldl_noteMoment_sum (xs : List ℚ) :
    ∀ s : MomentState, (xs.foldl noteMoment s).sum = s.sum + xs.sum := by
  induction xs with
  | nil => intro s; simp
  | cons x xs ih =>
    intro s
    simp only [List.foldl_cons, ih, noteMoment, List.sum_cons]
    ring

theorem foldl_noteMoment_sumSquared (xs : List ℚ) :
    ∀ s : MomentState,
      (xs.foldl noteMoment s).sumSquared =
        s.sumSquared + (xs.map fun x => x ^ 2).sum := by
  induction xs with
  | nil => intro s; simp
  | cons x xs ih =>
    intro s
    simp only [List.foldl_cons, ih, noteMoment, List.map_cons, List.sum_cons]
    ring

theorem momentAfter_sum (xs : List ℚ) : (momentAfter xs).sum = xs.sum := by
  have := foldl_noteMoment_sum xs initMoment
  simpa [momentAfter, initMoment] using this

theorem momentAfter_sumSquared (xs : List ℚ) :
    (momentAfter xs).sumSquared = (xs.map fun x => x ^ 2).sum := by
  have := foldl_noteMoment_sumSquared xs initMoment
  simpa [momentAfter, initMoment] using this

theorem two_mul_sum_le (a : ℚ) (xs : List ℚ) :
    2 * a * xs.sum ≤ (xs.length : ℚ) * a ^ 2 + (xs.map fun x => x ^ 2).sum := by
  induction xs with
  | nil => simp
  | cons x xs ih =>
    simp only [List.sum_cons, List.map_cons, List.length_cons]
    push_cast
    nlinarith [two_mul_le_add_sq a x, ih]

theorem sq_sum_le (xs : List ℚ) :
    xs.sum ^ 2 ≤ (xs.length : ℚ) * (xs.map fun x => x ^ 2).sum := by
  induction xs with
  | nil => simp
  | cons x xs ih =>
    simp only [List.sum_cons, List.map_cons, List.length_cons]
    push_cast
    nlinarith [two_mul_sum_le x xs, ih]

/-- C8: `stddev()` returns the `None` sentinel for `count ∈ {0, 1}`; for
`count ≥ 2` the radicand of the single-pass formula equals
`(count * sumSquares - sum ^ 2) / (count * (count - 1))` over the running
accumulators, is non-negative in exact arithmetic, and its square root is the
non-negative real the query returns. -/
theorem stddev_spec (xs : List ℚ) :
    (xs.length ≤ 1 → stddevRadicand xs.length (momentAfter xs) = none) ∧
    (2 ≤ xs.length → ∃ q : ℚ,
      stddevRadicand xs.length (momentAfter xs) = some q ∧ 0 ≤ q ∧
      q = ((xs.length : ℚ) * (xs.map fun x => x ^ 2).sum - xs.sum ^ 2) /
          ((xs.length : ℚ) * ((xs.length : ℚ) - 1)) ∧
      ∃ r : ℝ, 0 ≤ r ∧ r ^ 2 = (q : ℝ) ∧ r = Real.sqrt (q : ℝ)) := by
  constructor
  · intro h
    simp [stddevRadicand, h]
  · intro h
    have h1 : ¬ xs.length ≤ 1 := by omega
    have hq : stddevRadicand xs.length (momentAfter xs) =
        some (((xs.length : ℚ) * (xs.map fun x => x ^ 2).sum - xs.sum ^ 2) /
          ((xs.length : ℚ) * ((xs.length : ℚ) - 1))) := by
      rw [stddevRadicand, if_neg h1, momentAfter_sum, momentAfter_sumSquared]
    have hn : (2 : ℚ) ≤ (xs.length : ℚ) := by exact_mod_cast h
    have hnum : 0 ≤ (xs.length : ℚ) * (xs.map fun x => x ^ 2).sum - xs.sum ^ 2 := by
      linarith [sq_sum_le xs]
    have hden : 0 ≤ (xs.length : ℚ) * ((xs.length : ℚ) - 1) := by nlinarith
    have hq0 : 0 ≤ ((xs.length : ℚ) * (xs.map fun x => x ^ 2).sum - xs.sum ^ 2) /
        ((xs.length : ℚ) * ((xs.length : ℚ) - 1)) := div_nonneg hnum hden
    refine ⟨_, hq, hq0, rfl, Real.sqrt _, Real.sqrt_nonneg _, ?_, rfl⟩
    exact Real.sq_sqrt (by exact_mod_cast hq0)

theorem stddev_spec_witness :
    ∃ q : ℚ, stddevRadicand ([1, 2] : List ℚ).length (momentAfter [1, 2]) = some q ∧
      0 ≤ q ∧
      q = ((([1, 2] : List ℚ).length : ℚ) *
            (([1, 2] : List ℚ).map fun x => x ^ 2).sum - ([1, 2] : List ℚ).sum ^ 2) /
          ((([1, 2] : List ℚ).length : ℚ) * ((([1, 2] : List ℚ).length : ℚ) - 1)) ∧
      ∃ r : ℝ, 0 ≤ r ∧ r ^ 2 = (q : ℝ) ∧ r = Real.sqrt (q : ℝ) :=
  (stddev_spec [1, 2]).2 (by decide)

/-! ## Theorems: inverse-sum tracker -/

theorem noteHarmonic_frozen (s : HarmonicState) (hs : s.seenZero = true) (n : ℚ) :
    noteHarmonic s n = s := by
  cases s
  simp_all [noteHarmonic]

theorem foldl_noteHarmonic_frozen (ys : List ℚ) :
    ∀ s : HarmonicState, s.seenZero = true → ys.foldl noteHarmonic s = s := by
  induction ys with
  | nil => intro s _; rfl
  | cons y ys ih =>
    intro s hs
    rw [List.foldl_cons, noteHarmonic_frozen s hs, ih s hs]

theorem foldl_noteHarmonic_seenZero (ys : List ℚ) :
    ∀ s : HarmonicState,
      ((ys.foldl noteHarmonic s).seenZero = true ↔
        s.seenZero = true ∨ (0 : ℚ) ∈ ys) := by
  induction ys with
  | nil => intro s; simp
  | cons y ys ih =>
    intro s
    rw [List.foldl_cons, ih]
    simp only [noteHarmonic, Bool.or_eq_true, decide_eq_true_eq, List.mem_cons]
    constructor
    · rintro (⟨h | h⟩ | h)
      · exact Or.inl h
      · exact Or.inr (Or.inl h.symm)
      · exact Or.inr (Or.inr h)
    · rintro (h | h | h)
      · exact Or.inl (Or.inl h)
      · exact Or.inl (Or.inr h.symm)
      · exact Or.inr h

theorem harmonicAfter_seenZero (xs : List ℚ) :
    ((harmonicAfter xs).seenZero = true ↔ (0 : ℚ) ∈ xs) := by
  simpa [harmonicAfter, initHarmonic] using foldl_noteHarmonic_seenZero xs initHarmonic

theorem foldl_noteHarmonic_no_zero (xs : List ℚ) :
    ∀ s : HarmonicState, s.seenZero = false → (0 : ℚ) ∉ xs →
      (xs.foldl noteHarmonic s).sumOfInv = s.sumOfInv + (xs.map fun x => x⁻¹).sum ∧
      (xs.foldl noteHarmonic s).seenZero = false := by
  induction xs with
  | nil => intro s hs _; simpa using hs
  | cons x xs ih =>
    intro s hs hmem
    have hx : x ≠ 0 := fun h => hmem (by simp [h])
    have hxs : (0 : ℚ) ∉ xs := fun h => hmem (List.mem_cons_of_mem x h)
    have hstep : noteHarmonic s x = ⟨false, s.sumOfInv + x⁻¹⟩ := by
      simp [noteHarmonic, hs, hx]
    rw [List.foldl_cons, hstep]
    obtain ⟨h1, h2⟩ := ih ⟨false, s.sumOfInv + x⁻¹⟩ rfl hxs
    refine ⟨?_, h2⟩
    rw [h1]
    simp [add_assoc]

theorem harmonicAfter_no_zero (xs : List ℚ) (h : (0 : ℚ) ∉ xs) :
    (harmonicAfter xs).sumOfInv = (xs.map fun x => x⁻¹).sum ∧
    (harmonicAfter xs).seenZero = false := by
  have := foldl_noteHarmonic_no_zero xs initHarmonic rfl h
  simpa [harmonicAfter, initHarmonic] using this

/-- C4 (amended): once a zero is observed, `harmonicMean()` returns exactly
`0` from that observation on, and nothing further is accumulated into the sum
of reciprocals; with no zero observed, the accumulated sum is the sum of the
reciprocals of all observed values and, provided that sum is nonzero,
`harmonicMean()` returns the count divided by it — when the sum is exactly
zero the query instead raises a division-by-zero fault.  Observing `[4,0,2]`
yields `0` after the 2nd and 3rd observations. -/
theorem harmonic_mean_spec :
    (∀ xs : List ℚ, 1 ≤ xs.length →
      ((0 : ℚ) ∈ xs →
        harmonicMean xs.length (harmonicAfter xs) = .val 0 ∧
        ∀ ys : List ℚ,
          harmonicMean (xs ++ ys).length (harmonicAfter (xs ++ ys)) = .val 0 ∧
          (harmonicAfter (xs ++ ys)).sumOfInv = (harmonicAfter xs).sumOfInv ∧
          (harmonicAfter (xs ++ ys)).seenZero = true) ∧
      ((0 : ℚ) ∉ xs →
        (harmonicAfter xs).sumOfInv = (xs.map fun x => x⁻¹).sum ∧
        ((xs.map fun x => x⁻¹).sum ≠ 0 →
          harmonicMean xs.length (harmonicAfter xs) =
            .val ((xs.length : ℚ) / (xs.map fun x => x⁻¹).sum)) ∧
        ((xs.map fun x => x⁻¹).sum = 0 →
          harmonicMean xs.length (harmonicAfter xs) = .fault))) ∧
    harmonicMean ([4, 0] : List ℚ).length (harmonicAfter [4, 0]) = .val 0 ∧
    harmonicMean ([4, 0, 2] : List ℚ).length (harmonicAfter [4, 0, 2]) = .val 0 := by
  refine ⟨?_,
    by norm_num [harmonicAfter, harmonicMean, noteHarmonic, initHarmonic],
    by norm_num [harmonicAfter, harmonicMean, noteHarmonic, initHarmonic]⟩
  intro xs hlen
  have hc : xs.length ≠ 0 := by omega
  constructor
  · intro h0
    have hseen : (harmonicAfter xs).seenZero = true := (harmonicAfter_seenZero xs).mpr h0
    have happ : ∀ ys : List ℚ, harmonicAfter (xs ++ ys) = harmonicAfter xs := by
      intro ys
      have : harmonicAfter (xs ++ ys) = ys.foldl noteHarmonic (harmonicAfter xs) := by
        simp [harmonicAfter, List.foldl_append]
      rw [this, foldl_noteHarmonic_frozen ys _ hseen]
    refine ⟨by simp [harmonicMean, hc, hseen], ?_⟩
    intro ys
    have hc2 : (xs ++ ys).length ≠ 0 := by rw [List.length_append]; omega
    refine ⟨?_, by rw [happ ys], by rw [happ ys]; exact hseen⟩
    rw [happ ys, harmonicMean, if_neg hc2, if_pos hseen]
  · intro h0
    obtain ⟨hsum, hseen⟩ := harmonicAfter_no_zero xs h0
    refine ⟨hsum, ?_, ?_⟩
    · intro hne
      rw [harmonicMean, if_neg hc, if_neg (by simp [hseen]), hsum, if_neg hne,
        div_eq_mul_inv]
    · intro heq
      rw [harmonicMean, if_neg hc, if_neg (by simp [hseen]), hsum, if_pos heq]

theorem harmonic_mean_spec_witness :
    harmonicMean ([0] : List ℚ).length (harmonicAfter [0]) = QueryResult.val 0 :=
  ((harmonic_mean_spec.1 [0] (by decide)).1 (by simp)).1

/-- C4 counterexample: for the zero-free sequence `[1, -1]` of length `2`,
the query raises the division-by-zero fault instead of returning the value
`count / (sum of reciprocals)` asserted by the claim. -/
theorem harmonic_mean_spec_counterexample :
    harmonicMean ([1, -1] : List ℚ).length (harmonicAfter [1, -1]) =
      QueryResult.fault ∧
    harmonicMean ([1, -1] : List ℚ).length (harmonicAfter [1, -1]) ≠
      QueryResult.val ((([1, -1] : List ℚ).length : ℚ) /
        (([1, -1] : List ℚ).map fun x => x⁻¹).sum) := by
  constructor
  · norm_num [harmonicAfter, harmonicMean, noteHarmonic, initHarmonic]
  · norm_num [harmonicAfter, harmonicMean, noteHarmonic, initHarmonic]
    decide

/-- C10: the zero-free two-element sequence `[1, -1]` drives the accumulated
sum of reciprocals to exactly `0`, so `harmonic_mean()` raises a
division-by-zero fault (`0.0 ** -1`) even though `count > 0` and no zero was
ever observed. -/
theorem harmonic_mean_fault_reachable :
    1 ≤ ([1, -1] : List ℚ).length ∧ (0 : ℚ) ∉ ([1, -1] : List ℚ) ∧
    (harmonicAfter [1, -1]).seenZero = false ∧
    (harmonicAfter [1, -1]).sumOfInv = 0 ∧
    harmonicMean ([1, -1] : List ℚ).length (harmonicAfter [1, -1]) =
      QueryResult.fault := by
  norm_num [harmonicAfter, harmonicMean, noteHarmonic, initHarmonic]

/-! ## Theorems: product tracker -/

/-- C5: `geometricMean()` discriminates on the sign of the running product:
a nonnegative product yields the real value `product ^ (1 / count)`, a
negative product yields the complex power with exponent `1 / count`; the
product of `[-1, -1]` is `1`, giving the real result `1`, while `[-1]` alone
gives a complex-tagged result. -/
theorem geometric_mean_spec :
    (∀ xs : List ℚ, 1 ≤ xs.length →
      (0 ≤ productAfter xs →
        geometricMean xs.length (productAfter xs) =
          .real ((productAfter xs : ℝ) ^ ((xs.length : ℝ))⁻¹)) ∧
      (productAfter xs < 0 →
        geometricMean xs.length (productAfter xs) =
          .cplx ((productAfter xs : ℂ) ^ ((xs.length : ℂ))⁻¹))) ∧
    geometricMean ([-1, -1] : List ℚ).length (productAfter [-1, -1]) =
      GMResult.real 1 ∧
    (∃ z : ℂ,
      geometricMean ([-1] : List ℚ).length (productAfter [-1]) =
        GMResult.cplx z) := by
  refine ⟨?_, ?_, ?_⟩
  · intro xs hlen
    have h0 : xs.length ≠ 0 := by omega
    constructor
    · intro hp
      simp [geometricMean, h0, hp]
    · intro hp
      simp [geometricMean, h0, not_le.mpr hp]
  · have hp : productAfter [-1, -1] = 1 := by norm_num [productAfter]
    rw [hp]
    norm_num [geometricMean]
  · have hp : productAfter [-1] = -1 := by norm_num [productAfter]
    refine ⟨((-1 : ℚ) : ℂ) ^ ((1 : ℂ))⁻¹, ?_⟩
    rw [hp]
    norm_num [geometricMean]

theorem geometric_mean_spec_witness :
    geometricMean ([-1, -1] : List ℚ).length (productAfter [-1, -1]) =
      GMResult.real ((productAfter [-1, -1] : ℝ) ^
        ((([-1, -1] : List ℚ).length : ℝ))⁻¹) :=
  (geometric_mean_spec.1 [-1, -1] (by decide)).1 (by norm_num [productAfter])

/-! ## Theorems: frequency tracker -/

theorem eqMax_gtMax (c : ℕ) (m : Option ℕ) (h : eqMax c m = true) :
    gtMax c m = false := by
  cases m with
  | none => simp [eqMax] at h
  | some k =>
    simp only [eqMax, decide_eq_true_eq] at h
    simp [gtMax, h]

theorem noteMode_modes_gt (s : ModeState) (n : ℚ)
    (h : gtMax (s.counts n + 1) s.maxCount = true) :
    (noteMode s n).modes = [n] := by
  simp [noteMode, h]

theorem noteMode_modes_eq (s : ModeState) (n : ℚ)
    (h : eqMax (s.counts n + 1) s.maxCount = true) :
    (noteMode s n).modes = s.modes ++ [n] := by
  simp [noteMode, eqMax_gtMax _ _ h, h]

theorem count_append_single (xs : List ℚ) (v n : ℚ) :
    (xs ++ [n]).count v = xs.count v + (if v = n then 1 else 0) := by
  rw [List.count_append, List.count_singleton]
  congr 1
  by_cases hv : v = n
  · rw [if_pos hv, if_pos (by simp [hv])]
  · rw [if_neg hv, if_neg (by simp only [beq_iff_eq]; exact fun h => hv h.symm)]

theorem modeInv_note (xs : List ℚ) (s : ModeState) (n : ℚ) (h : ModeInv xs s) :
    ModeInv (xs ++ [n]) (noteMode s n) := by
  obtain ⟨hcounts, hrest⟩ := h
  have hcn : s.counts n = xs.count n := hcounts n
  have hnewc : ∀ v, (if v = n then s.counts n + 1 else s.counts v) =
      (xs ++ [n]).count v := by
    intro v
    rw [count_append_single]
    by_cases hv : v = n
    · rw [if_pos hv, if_pos hv, hv, hcn]
    · rw [if_neg hv, if_neg hv, hcounts v, Nat.add_zero]
  rcases hrest with ⟨hmax, hxs, hmodes⟩ | ⟨m, hmax, hm, hne, hle, hiff⟩
  · subst hxs
    have hgt : gtMax (s.counts n + 1) s.maxCount = true := by simp [gtMax, hmax]
    have hstep : noteMode s n =
        ⟨fun v => if v = n then s.counts n + 1 else s.counts v,
          some (s.counts n + 1), [n]⟩ := by
      simp [noteMode, hgt]
    rw [hstep]
    refine ⟨fun v => hnewc v, Or.inr ⟨s.counts n + 1, rfl, by omega, by simp, ?_, ?_⟩⟩
    · intro v
      rw [← hnewc v]
      by_cases hv : v = n
      · rw [if_pos hv]
      · rw [if_neg hv, hcounts v]
        simp
    · intro v
      rw [← hnewc v]
      by_cases hv : v = n
      · rw [if_pos hv, hv]
        simp
      · rw [if_neg hv]
        constructor
        · intro h2
          exact absurd (List.mem_singleton.mp h2) hv
        · intro h2
          rw [hcounts v] at h2
          simp at h2
  · by_cases hgt : m < s.counts n + 1
    · have hg : gtMax (s.counts n + 1) s.maxCount = true := by
        simp [gtMax, hmax, hgt]
      have hstep : noteMode s n =
          ⟨fun v => if v = n then s.counts n + 1 else s.counts v,
            some (s.counts n + 1), [n]⟩ := by
        simp [noteMode, hg]
      rw [hstep]
      refine ⟨fun v => hnewc v, Or.inr ⟨s.counts n + 1, rfl, by omega, by simp, ?_, ?_⟩⟩
      · intro v
        rw [← hnewc v]
        by_cases hv : v = n
        · rw [if_pos hv]
        · rw [if_neg hv, hcounts v]
          have h1 := hle v
          omega
      · intro v
        rw [← hnewc v]
        by_cases hv : v = n
        · rw [if_pos hv, hv]
          simp
        · rw [if_neg hv]
          constructor
          · intro h2
            exact absurd (List.mem_singleton.mp h2) hv
          · intro h2
            rw [hcounts v] at h2
            have h1 := hle v
            omega
    · by_cases heq : s.counts n + 1 = m
      · have he : eqMax (s.counts n + 1) s.maxCount = true := by
          simp [eqMax, hmax, heq]
        have hstep : noteMode s n =
            ⟨fun v => if v = n then s.counts n + 1 else s.counts v,
              s.maxCount, s.modes ++ [n]⟩ := by
          simp [noteMode, eqMax_gtMax _ _ he, he]
        rw [hstep]
        refine ⟨fun v => hnewc v, Or.inr ⟨m, hmax, hm, by simp, ?_, ?_⟩⟩
        · intro v
          rw [← hnewc v]
          by_cases hv : v = n
          · rw [if_pos hv]
            omega
          · rw [if_neg hv, hcounts v]
            exact hle v
        · intro v
          rw [← hnewc v]
          by_cases hv : v = n
          · rw [if_pos hv, hv]
            constructor
            · intro _
              exact heq
            · intro _
              exact List.mem_append_right _ (List.mem_singleton_self n)
          · rw [if_neg hv]
            constructor
            · intro h2
              rcases List.mem_append.mp h2 with h3 | h3
              · rw [hcounts v]
                exact (hiff v).mp h3
              · exact absurd (List.mem_singleton.mp h3) hv
            · intro h2
              rw [hcounts v] at h2
              exact List.mem_append_left _ ((hiff v).mpr h2)
      · have hg : gtMax (s.counts n + 1) s.maxCount = false := by
          simp only [gtMax, hmax]
          simp only [gt_iff_lt, decide_eq_false_iff_not]
          omega
        have he : eqMax (s.counts n + 1) s.maxCount = false := by
          simp only [eqMax, hmax]
          simp only [decide_eq_false_iff_not]
          omega
        have hstep : noteMode s n =
            ⟨fun v => if v = n then s.counts n + 1 else s.counts v,
              s.maxCount, s.modes⟩ := by
          simp [noteMode, hg, he]
        rw [hstep]
        refine ⟨fun v => hnewc v, Or.inr ⟨m, hmax, hm, hne, ?_, ?_⟩⟩
        · intro v
          rw [← hnewc v]
          by_cases hv : v = n
          · rw [if_pos hv]
            omega
          · rw [if_neg hv, hcounts v]
            exact hle v
        · intro v
          rw [← hnewc v]
          by_cases hv : v = n
          · rw [if_pos hv, hv]
            constructor
            · intro hmem
              have h1 := (hiff n).mp hmem
              rw [← hcn] at h1
              omega
            · intro hEq
              exact absurd hEq heq
          · rw [if_neg hv, hcounts v]
            exact hiff v

theorem modeInv_foldl (l : List ℚ) :
    ∀ (xs : List ℚ) (s : ModeState), ModeInv xs s →
      ModeInv (xs ++ l) (l.foldl noteMode s) := by
  induction l with
  | nil => intro xs s h; simpa using h
  | cons n l ih =>
    intro xs s h
    have h2 := ih (xs ++ [n]) (noteMode s n) (modeInv_note xs s n h)
    rw [List.append_assoc, List.singleton_append] at h2
    exact h2

theorem modeInv_after (xs : List ℚ) : ModeInv xs (modeAfter xs) := by
  have h0 : ModeInv [] initMode := by
    refine ⟨fun v => by simp [initMode], Or.inl ⟨rfl, rfl, rfl⟩⟩
  have := modeInv_foldl xs [] initMode h0
  simpa [modeAfter] using this

/-- C3: `modes()` returns exactly the values currently tied for the maximum
occurrence count; a new count strictly above the register replaces the mode
list with that single value and a tie appends it; observing `[1,1,2,2]` yields
modes `[1, 2]` in that order, and the list is empty before any observation. -/
theorem modes_spec :
    (∀ (xs : List ℚ) (v : ℚ),
      v ∈ (modeAfter xs).modes ↔ v ∈ xs ∧ ∀ w, xs.count w ≤ xs.count v) ∧
    (∀ (xs : List ℚ) (n : ℚ),
      gtMax ((modeAfter xs).counts n + 1) (modeAfter xs).maxCount = true →
        (noteMode (modeAfter xs) n).modes = [n]) ∧
    (∀ (xs : List ℚ) (n : ℚ),
      eqMax ((modeAfter xs).counts n + 1) (modeAfter xs).maxCount = true →
        (noteMode (modeAfter xs) n).modes = (modeAfter xs).modes ++ [n]) ∧
    (modeAfter [1, 1, 2, 2]).modes = [1, 2] ∧
    (modeAfter []).modes = [] := by
  refine ⟨?_, fun xs n h => noteMode_modes_gt _ n h,
    fun xs n h => noteMode_modes_eq _ n h,
    by norm_num [modeAfter, noteMode, initMode, gtMax, eqMax], rfl⟩
  intro xs v
  obtain ⟨hcounts, hrest⟩ := modeInv_after xs
  rcases hrest with ⟨hmax, hxs, hmodes⟩ | ⟨m, hmax, hm, hne, hle, hiff⟩
  · subst hxs
    simp [hmodes]
  · rw [hiff v]
    constructor
    · intro hv
      refine ⟨List.count_pos_iff.mp (by omega), fun w => hv ▸ hle w⟩
    · rintro ⟨hmem, hbound⟩
      obtain ⟨u, hu⟩ := List.exists_mem_of_ne_nil _ hne
      have hum : xs.count u = m := (hiff u).mp hu
      have h1 : m ≤ xs.count v := hum ▸ hbound u
      have h2 : xs.count v ≤ m := hle v
      omega

theorem modes_spec_witness :
    (noteMode (modeAfter ([] : List ℚ)) 5).modes = [5] :=
  modes_spec.2.1 [] 5 (by simp [modeAfter, initMode, gtMax])

/-! ## Theorems: order-statistic tracker -/

theorem hpush_sorted {l : List ℚ} (hl : l.Sorted (· ≤ ·)) (x : ℚ) :
    (hpush l x).Sorted (· ≤ ·) :=
  List.Sorted.orderedInsert x l hl

theorem hpush_perm (l : List ℚ) (x : ℚ) : List.Perm (hpush l x) (x :: l) :=
  List.perm_orderedInsert _ x l

theorem mem_hpush {y x : ℚ} {l : List ℚ} : y ∈ hpush l x ↔ y = x ∨ y ∈ l :=
  List.mem_orderedInsert _

theorem hpush_length (l : List ℚ) (x : ℚ) : (hpush l x).length = l.length + 1 :=
  List.orderedInsert_length _ l x

theorem hpush_coe (l : List ℚ) (x : ℚ) :
    ((hpush l x : List ℚ) : Multiset ℚ) = x ::ₘ (l : Multiset ℚ) := by
  rw [Multiset.coe_eq_coe.mpr (hpush_perm l x), ← Multiset.cons_coe]

theorem hpush_cons_of_lt {b x : ℚ} (l : List ℚ) (h : b < x) :
    hpush (b :: l) x = b :: hpush l x := by
  simp only [hpush, List.orderedInsert, if_neg (not_le.mpr h)]

theorem noteMedian_swapLo (t : ℚ) (lo' hi : List ℚ) (n : ℚ)
    (hlen : (t :: lo').length = hi.length) (hc : n < -t) :
    noteMedian ⟨t :: lo', hi⟩ n = ⟨hpush lo' (-n), hpush hi (-t)⟩ := by
  have ht : t < -n := by linarith
  unfold noteMedian
  dsimp only
  rw [if_pos hlen, if_pos hc, hpush_cons_of_lt lo' ht]

theorem noteMedian_pushHiNil (hi : List ℚ) (n : ℚ)
    (hlen : ([] : List ℚ).length = hi.length) :
    noteMedian ⟨[], hi⟩ n = ⟨[], hpush hi n⟩ := by
  unfold noteMedian
  dsimp only
  rw [if_pos hlen]

theorem noteMedian_pushHiCons (t : ℚ) (lo' hi : List ℚ) (n : ℚ)
    (hlen : (t :: lo').length = hi.length) (hc : ¬ n < -t) :
    noteMedian ⟨t :: lo', hi⟩ n = ⟨t :: lo', hpush hi n⟩ := by
  unfold noteMedian
  dsimp only
  rw [if_pos hlen, if_neg hc]

theorem noteMedian_swapHi (lo : List ℚ) (t : ℚ) (hi' : List ℚ) (n : ℚ)
    (hlen : lo.length ≠ (t :: hi').length) (hc : t < n) :
    noteMedian ⟨lo, t :: hi'⟩ n = ⟨hpush lo (-t), hpush hi' n⟩ := by
  unfold noteMedian
  dsimp only
  rw [if_neg hlen, if_pos hc, hpush_cons_of_lt hi' hc]

theorem noteMedian_pushLo (lo : List ℚ) (t : ℚ) (hi' : List ℚ) (n : ℚ)
    (hlen : lo.length ≠ (t :: hi').length) (hc : ¬ t < n) :
    noteMedian ⟨lo, t :: hi'⟩ n = ⟨hpush lo (-n), t :: hi'⟩ := by
  unfold noteMedian
  dsimp only
  rw [if_neg hlen, if_neg hc]

/-- C6 is a code bug: `median()` has no `count == 0` guard; on the empty
state both heaps have equal length `0` and the query indexes `heap[0]` on an
empty list, raising `IndexError` (the `none` of the model) instead of
returning the undefined sentinel the specification promises. -/
theorem median_empty_fault : medianQuery (medianAfter []) = none := rfl

/-- C7 counterexample: the median after all six observations of
`[5,3,8,1,9,2]` is `4`, not the `4.5` the claim asserts. -/
theorem median_example_counterexample :
    medianQuery (medianAfter [5, 3, 8, 1, 9, 2]) = some 4 ∧
    medianQuery (medianAfter [5, 3, 8, 1, 9, 2]) ≠ some (9 / 2) := by
  have h : medianQuery (medianAfter [5, 3, 8, 1, 9, 2]) = some 4 := by
    norm_num [medianAfter, noteMedian, medianQuery, initMed, hpush,
      List.orderedInsert]
  refine ⟨h, ?_⟩
  rw [h]
  intro hcon
  have : (4 : ℚ) = 9 / 2 := Option.some_injective _ hcon
  norm_num at this

/-- C7 (amended): feeding `[5,3,8,1,9,2]` one value at a time, the medians
after each of the six observations are `5, 4, 5, 4, 5, 4` (the final median
of the sorted sequence `[1,2,3,5,8,9]` is `(3+5)/2 = 4`, not `4.5`). -/
theorem median_example_sequence :
    medianQuery (medianAfter [(5 : ℚ)]) = some 5 ∧
    medianQuery (medianAfter [5, 3]) = some 4 ∧
    medianQuery (medianAfter [5, 3, 8]) = some 5 ∧
    medianQuery (medianAfter [5, 3, 8, 1]) = some 4 ∧
    medianQuery (medianAfter [5, 3, 8, 1, 9]) = some 5 ∧
    medianQuery (medianAfter [5, 3, 8, 1, 9, 2]) = some 4 := by
  refine ⟨?_, ?_, ?_, ?_, ?_, ?_⟩ <;>
    norm_num [medianAfter, noteMedian, medianQuery, initMed, hpush,
      List.orderedInsert]

theorem hpush_map_neg_coe (l : List ℚ) (x : ℚ) :
    ((List.map (fun a => -a) (hpush l x) : List ℚ) : Multiset ℚ) =
      (-x) ::ₘ ((List.map (fun a => -a) l : List ℚ) : Multiset ℚ) := by
  rw [Multiset.coe_eq_coe.mpr ((hpush_perm l x).map fun a => -a)]
  simp [← Multiset.cons_coe]

theorem medInv_init : MedInv initMed 0 := by
  refine ⟨List.sorted_nil, List.sorted_nil, Or.inl rfl, by simp [initMed], ?_⟩
  simp [initMed]

theorem medInv_note {s : MedState} {M : Multiset ℚ} (h : MedInv s M) (n : ℚ) :
    MedInv (noteMedian s n) (n ::ₘ M) := by
  obtain ⟨lo, hi⟩ := s
  obtain ⟨hlo, hhi, hsize, hcross, hsum⟩ := h
  dsimp only at hlo hhi hsize hcross hsum
  by_cases hlen : lo.length = hi.length
  · cases lo with
    | nil =>
      have hhinil : hi = [] := List.length_eq_zero.mp (by simpa using hlen.symm)
      subst hhinil
      rw [noteMedian_pushHiNil [] n rfl]
      refine ⟨List.sorted_nil, List.sorted_singleton n, Or.inr (by simp [hpush]), by simp [hpush], ?_⟩
      have : M = 0 := by simpa using hsum.symm
      simp [hpush, this]
    | cons t lo' =>
      by_cases hc : n < -t
      · rw [noteMedian_swapLo t lo' hi n hlen hc]
        obtain ⟨htlo, hlo''⟩ := List.sorted_cons.mp hlo
        refine ⟨hpush_sorted hlo'' (-n), hpush_sorted hhi (-t), ?_, ?_, ?_⟩
        · right
          rw [hpush_length, hpush_length]
          simp only [List.length_cons] at hlen
          omega
        · intro a ha b hb
          rcases mem_hpush.mp ha with rfl | ha'
          · rcases mem_hpush.mp hb with rfl | hb'
            · linarith
            · have := hcross t (List.mem_cons_self t lo') b hb'
              linarith
          · rcases mem_hpush.mp hb with rfl | hb'
            · have := htlo a ha'
              linarith
            · exact hcross a (List.mem_cons_of_mem t ha') b hb'
        · rw [hpush_map_neg_coe, neg_neg, hpush_coe, ← hsum]
          simp only [List.map_cons, ← Multiset.cons_coe, Multiset.cons_add,
            Multiset.add_cons]
          rw [Multiset.cons_swap]
      · rw [noteMedian_pushHiCons t lo' hi n hlen hc]
        obtain ⟨htlo, hlo''⟩ := List.sorted_cons.mp hlo
        refine ⟨hlo, hpush_sorted hhi n, ?_, ?_, ?_⟩
        · right
          dsimp only
          rw [hpush_length]
          omega
        · intro a ha b hb
          rcases mem_hpush.mp hb with rfl | hb'
          · rcases List.mem_cons.mp ha with rfl | ha'
            · linarith [not_lt.mp hc]
            · have := htlo a ha'
              linarith [not_lt.mp hc]
          · exact hcross a ha b hb'
        · rw [hpush_coe, ← hsum, Multiset.add_cons]
  · have hsz : hi.length = lo.length + 1 :=
      hsize.resolve_left fun h => hlen h.symm
    cases hi with
    | nil => simp at hsz
    | cons t hi' =>
      have hlen' : lo.length ≠ (t :: hi').length := hlen
      obtain ⟨hthi, hhi''⟩ := List.sorted_cons.mp hhi
      by_cases hc : t < n
      · rw [noteMedian_swapHi lo t hi' n hlen' hc]
        refine ⟨hpush_sorted hlo (-t), hpush_sorted hhi'' n, ?_, ?_, ?_⟩
        · left
          rw [hpush_length, hpush_length]
          simp only [List.length_cons] at hsz
          omega
        · intro a ha b hb
          rcases mem_hpush.mp ha with rfl | ha'
          · rcases mem_hpush.mp hb with rfl | hb'
            · linarith
            · have := hthi b hb'
              linarith
          · rcases mem_hpush.mp hb with rfl | hb'
            · have := hcross a ha' t (List.mem_cons_self t hi')
              linarith
            · exact hcross a ha' b (List.mem_cons_of_mem t hb')
        · rw [hpush_map_neg_coe, neg_neg, hpush_coe, ← hsum]
          simp only [← Multiset.cons_coe, Multiset.cons_add, Multiset.add_cons]
      · rw [noteMedian_pushLo lo t hi' n hlen' hc]
        refine ⟨hpush_sorted hlo (-n), hhi, ?_, ?_, ?_⟩
        · left
          dsimp only
          rw [hpush_length]
          simp only [List.length_cons] at hsz
          omega
        · intro a ha b hb
          rcases mem_hpush.mp ha with rfl | ha'
          · rcases List.mem_cons.mp hb with rfl | hb'
            · linarith [not_lt.mp hc]
            · have := hthi b hb'
              linarith [not_lt.mp hc]
          · exact hcross a ha' b hb
        · rw [hpush_map_neg_coe, neg_neg, ← hsum, Multiset.cons_add]

theorem medInv_foldl (l : List ℚ) :
    ∀ (s : MedState) (M : Multiset ℚ), MedInv s M →
      MedInv (l.foldl noteMedian s) (M + (l : Multiset ℚ)) := by
  induction l with
  | nil => intro s M h; simpa using h
  | cons n l ih =>
    intro s M h
    have h2 := ih (noteMedian s n) (n ::ₘ M) (medInv_note h n)
    have h3 : (n ::ₘ M) + (l : Multiset ℚ) = M + ((n :: l : List ℚ) : Multiset ℚ) := by
      simp only [← Multiset.cons_coe, Multiset.cons_add, Multiset.add_cons]
    rw [List.foldl_cons]
    rw [h3] at h2
    exact h2

theorem medInv_after (xs : List ℚ) : MedInv (medianAfter xs) (xs : Multiset ℚ) := by
  have := medInv_foldl xs initMed 0 medInv_init
  simpa [medianAfter] using this

theorem noteMedian_sizes_equal (s : MedState) (n : ℚ)
    (hlen : s.negLoHeap.length = s.hiHeap.length) :
    (noteMedian s n).hiHeap.length = s.hiHeap.length + 1 ∧
    (noteMedian s n).negLoHeap.length = s.negLoHeap.length := by
  obtain ⟨lo, hi⟩ := s
  dsimp only at hlen ⊢
  cases lo with
  | nil =>
    rw [noteMedian_pushHiNil hi n hlen]
    dsimp only
    rw [hpush_length]
    exact ⟨rfl, rfl⟩
  | cons t lo' =>
    by_cases hc : n < -t
    · rw [noteMedian_swapLo t lo' hi n hlen hc]
      dsimp only
      rw [hpush_length, hpush_length]
      exact ⟨rfl, rfl⟩
    · rw [noteMedian_pushHiCons t lo' hi n hlen hc]
      dsimp only
      rw [hpush_length]
      exact ⟨rfl, rfl⟩

theorem noteMedian_sizes_unequal (s : MedState) (n : ℚ)
    (hlen : s.hiHeap.length = s.negLoHeap.length + 1) :
    (noteMedian s n).hiHeap.length = (noteMedian s n).negLoHeap.length := by
  obtain ⟨lo, hi⟩ := s
  dsimp only at hlen ⊢
  cases hi with
  | nil => simp at hlen
  | cons t hi' =>
    have hne : lo.length ≠ (t :: hi').length := by
      rw [List.length_cons] at hlen
      rw [List.length_cons]
      omega
    by_cases hc : t < n
    · rw [noteMedian_swapHi lo t hi' n hne hc]
      dsimp only
      rw [hpush_length, hpush_length]
      simp only [List.length_cons] at hlen
      omega
    · rw [noteMedian_pushLo lo t hi' n hne hc]
      dsimp only
      rw [hpush_length]
      simp only [List.length_cons] at hlen ⊢
      omega

/-- C2: after every observation the heap sizes satisfy
`size(high) - size(low) ∈ {0, 1}`; an observation processed when the sizes are
equal grows the upper heap by one and leaves the lower heap unchanged, and one
processed when the upper heap has one more element makes the sizes equal. -/
theorem heap_size_invariant (xs : List ℚ) (n : ℚ) :
    (((medianAfter xs).hiHeap.length : ℤ) -
        ((medianAfter xs).negLoHeap.length : ℤ) = 0 ∨
      ((medianAfter xs).hiHeap.length : ℤ) -
        ((medianAfter xs).negLoHeap.length : ℤ) = 1) ∧
    ((medianAfter xs).hiHeap.length = (medianAfter xs).negLoHeap.length →
      (noteMedian (medianAfter xs) n).hiHeap.length =
        (medianAfter xs).hiHeap.length + 1 ∧
      (noteMedian (medianAfter xs) n).negLoHeap.length =
        (medianAfter xs).negLoHeap.length) ∧
    ((medianAfter xs).hiHeap.length = (medianAfter xs).negLoHeap.length + 1 →
      (noteMedian (medianAfter xs) n).hiHeap.length =
        (noteMedian (medianAfter xs) n).negLoHeap.length) := by
  obtain ⟨-, -, hsize, -, -⟩ := medInv_after xs
  refine ⟨?_, fun hl => noteMedian_sizes_equal _ n hl.symm,
    fun hl => noteMedian_sizes_unequal _ n hl⟩
  rcases hsize with h | h
  · left
    omega
  · right
    omega

theorem heap_size_invariant_witness :
    (noteMedian (medianAfter ([] : List ℚ)) 7).hiHeap.length =
      (medianAfter ([] : List ℚ)).hiHeap.length + 1 ∧
    (noteMedian (medianAfter ([] : List ℚ)) 7).negLoHeap.length =
      (medianAfter ([] : List ℚ)).negLoHeap.length :=
  (heap_size_invariant [] 7).2.1 rfl

theorem medianQuery_eqCase (a b : ℚ) (lo' hi' : List ℚ)
    (hlen : (a :: lo').length = (b :: hi').length) :
    medianQuery ⟨a :: lo', b :: hi'⟩ = some ((-a + b) / 2) := by
  unfold medianQuery
  dsimp only
  rw [if_pos hlen]

theorem medianQuery_hiCase (lo : List ℚ) (b : ℚ) (hi' : List ℚ)
    (hne : lo.length ≠ (b :: hi').length) (hlt : lo.length < (b :: hi').length) :
    medianQuery ⟨lo, b :: hi'⟩ = some b := by
  unfold medianQuery
  dsimp only
  rw [if_neg hne, if_pos hlt]
  rfl

theorem medianQuery_eq_sortedMedian {s : MedState} {l : List ℚ}
    (h : MedInv s (l : Multiset ℚ)) (hne : l ≠ []) :
    medianQuery s = sortedMedian l := by
  obtain ⟨lo, hi⟩ := s
  obtain ⟨hlo, hhi, hsize, hcross, hsum⟩ := h
  dsimp only at hlo hhi hsize hcross hsum
  have hLsorted : ((lo.map fun a => -a).reverse ++ hi).Sorted (· ≤ ·) := by
    refine List.pairwise_append.mpr ⟨?_, hhi, ?_⟩
    · refine List.pairwise_reverse.mpr ?_
      refine List.pairwise_map.mpr ?_
      exact hlo.imp fun hab => neg_le_neg hab
    · intro a ha b hb
      rw [List.mem_reverse, List.mem_map] at ha
      obtain ⟨c, hc, rfl⟩ := ha
      exact hcross c hc b hb
  have hperm : List.Perm ((lo.map fun a => -a).reverse ++ hi) l := by
    rw [← Multiset.coe_eq_coe, ← Multiset.coe_add]
    have hrev : (((lo.map fun a => -a).reverse : List ℚ) : Multiset ℚ) =
        ((lo.map fun a => -a : List ℚ) : Multiset ℚ) :=
      Multiset.coe_eq_coe.mpr (List.reverse_perm _)
    rw [hrev]
    exact hsum
  have hsorteq : l.insertionSort (· ≤ ·) = (lo.map fun a => -a).reverse ++ hi :=
    List.eq_of_perm_of_sorted ((List.perm_insertionSort _ l).trans hperm.symm)
      (List.sorted_insertionSort _ l) hLsorted
  have hLlen : ((lo.map fun a => -a).reverse).length = lo.length := by simp
  rcases hsize with heq | hplus
  · have hlopos : 0 < lo.length := by
      rcases Nat.eq_zero_or_pos lo.length with h0 | h0
      · exfalso
        apply hne
        have hl0 : l.length = 0 := by
          have := hperm.length_eq
          simp only [List.length_append, hLlen] at this
          omega
        exact List.length_eq_zero.mp hl0
      · exact h0
    obtain ⟨a, lo', rfl⟩ : ∃ a lo', lo = a :: lo' := by
      cases lo with
      | nil => simp at hlopos
      | cons a lo' => exact ⟨a, lo', rfl⟩
    obtain ⟨b, hi', rfl⟩ : ∃ b hi', hi = b :: hi' := by
      cases hi with
      | nil =>
        simp only [List.length_cons, List.length_nil] at heq
        omega
      | cons b hi' => exact ⟨b, hi', rfl⟩
    rw [medianQuery_eqCase a b lo' hi' heq.symm]
    unfold sortedMedian
    rw [hsorteq]
    have hk : ((((a :: lo').map fun x => -x).reverse ++ (b :: hi')).length) =
        2 * (lo'.length + 1) := by
      simp only [List.length_append, List.length_reverse, List.length_map,
        List.length_cons] at heq ⊢
      omega
    rw [hk]
    have h2 : ¬(2 * (lo'.length + 1) = 0) := by omega
    have h3 : ¬(2 * (lo'.length + 1) % 2 = 1) := by omega
    rw [if_neg h2, if_neg h3]
    have hdiv : 2 * (lo'.length + 1) / 2 = lo'.length + 1 := by omega
    rw [hdiv]
    have hidx1 : lo'.length + 1 - 1 = lo'.length := by omega
    rw [hidx1]
    have hLlen' : (((a :: lo').map fun x => -x).reverse).length = lo'.length + 1 := by
      simp
    have hleft : ((((a :: lo').map fun x => -x).reverse ++ (b :: hi'))[lo'.length]?)
        = some (-a) := by
      rw [List.getElem?_append_left (by rw [hLlen']; omega)]
      rw [List.map_cons, List.reverse_cons]
      rw [List.getElem?_append_right (by simp)]
      simp
    have hright : ((((a :: lo').map fun x => -x).reverse ++
        (b :: hi'))[lo'.length + 1]?) = some b := by
      rw [List.getElem?_append_right (by rw [hLlen'])]
      rw [hLlen']
      simp
    rw [hleft, hright]
  · obtain ⟨b, hi', rfl⟩ : ∃ b hi', hi = b :: hi' := by
      cases hi with
      | nil => simp at hplus
      | cons b hi' => exact ⟨b, hi', rfl⟩
    have hne2 : lo.length ≠ (b :: hi').length := by
      simp only [List.length_cons] at hplus ⊢
      omega
    have hlt : lo.length < (b :: hi').length := by
      simp only [List.length_cons] at hplus ⊢
      omega
    rw [medianQuery_hiCase lo b hi' hne2 hlt]
    unfold sortedMedian
    rw [hsorteq]
    have hk : (((lo.map fun x => -x).reverse ++ (b :: hi')).length) =
        2 * lo.length + 1 := by
      simp only [List.length_append, List.length_reverse, List.length_map,
        List.length_cons] at hplus ⊢
      omega
    rw [hk]
    have h2 : ¬(2 * lo.length + 1 = 0) := by omega
    have h3 : (2 * lo.length + 1) % 2 = 1 := by omega
    rw [if_neg h2, if_pos h3]
    have hdiv : (2 * lo.length + 1) / 2 = lo.length := by omega
    rw [hdiv]
    rw [List.getElem?_append_right (by rw [hLlen])]
    rw [hLlen]
    simp

/-- C1: after each prefix of `k ≥ 1` observations, the dual-heap `median()`
equals the median of the fully sorted prefix: the middle element when the
prefix length is odd, and the average of the two middle elements when it is
even. -/
theorem median_matches_sorted_prefix (xs : List ℚ) (k : ℕ) (h1 : 1 ≤ k)
    (h2 : k ≤ xs.length) :
    medianQuery (medianAfter (xs.take k)) = sortedMedian (xs.take k) := by
  refine medianQuery_eq_sortedMedian (medInv_after (xs.take k)) ?_
  have hlen : (xs.take k).length = k := by
    rw [List.length_take]
    omega
  intro hcon
  rw [hcon] at hlen
  simp only [List.length_nil] at hlen
  omega

theorem median_matches_sorted_prefix_witness :
    medianQuery (medianAfter (([5, 3] : List ℚ).take 1)) =
      sortedMedian (([5, 3] : List ℚ).take 1) :=
  median_matches_sorted_prefix [5, 3] 1 (by decide) (by decide)

end StreamStats
